import Mathlib

/-!
# Verification of the k-mer feature-extraction core (`src/KMerTransformers.py`)

This file gives a shallow embedding of the three transformers of the
repository — `KMerTransformer` (exact k-mer counting), `KGroupKMerTransformer`
(composition-grouped k-mer counting) and `KGroupColumnPruner` — and proves the
specification's claims about them.

Modelling conventions:
* Python strings become `List Char`; a DNA sequence is such a list.
* Python `dict` rows (`dict.fromkeys(vocab, 0)` plus in-place `+=`) become a
  total function `κ → ℚ` together with the vocabulary list; an update to a key
  absent from the vocabulary (Python `KeyError`) is modelled by `Option`:
  the whole per-sequence transform returns `none` exactly when the loop hits a
  missing key.
* Numeric values (`int` counts and `float` normalized increments) are read as
  exact rationals `ℚ`.
* `itertools.permutations(s, r)` yields every arrangement of every r-element
  positional selection from `s`; since the source immediately deduplicates with
  `set(...)`, we model it as all permutations of all length-r sublists, then
  `dedup`.  Python `sorted` on distinct keys of a linear order is modelled by
  `List.insertionSort (· ≤ ·)` (any correct sort agrees on duplicate-free
  input).
-/

namespace KMerTransformers

/-- The DNA alphabet `{A, C, G, T}`. -/
def dnaAlphabet : List Char := ['A', 'C', 'G', 'T']

/-- `superstring = 'G' * k + 'A' * k + 'T' * k + 'C' * k`
(from `KMerTransformer.__create_kmer_permutations`). -/
def superstring (k : Nat) : List Char :=
  List.replicate k 'G' ++ (List.replicate k 'A' ++ (List.replicate k 'T' ++ List.replicate k 'C'))

/-- Model of Python `permutations(s, r)` (as consumed by `set(...)`): every
permutation of every length-`r` sublist of `s`. -/
def pyPermutations (s : List Char) (r : Nat) : List (List Char) :=
  (s.sublists.filter (fun t => decide (t.length = r))).flatMap List.permutations

/-- `KMerTransformer.__create_kmer_permutations`:
`sorted([''.join(kmer) for kmer in set(permutations(superstring, k))])`. -/
def createKmerPermutations (k : Nat) : List (List Char) :=
  List.insertionSort (· ≤ ·) ((pyPermutations (superstring k) k).dedup)

/-- `KGroupKMerTransformer.__make_key_string(a, c, t, g) = (a, c, t, g)`. -/
def makeKeyString (a c t g : Nat) : Nat × Nat × Nat × Nat := (a, c, t, g)

/-- Innermost loop of `KGroupKMerTransformer.__create_kgroup_kmer_permutations`:
`for t in range(k+1): if a + c + g + t == k: append(make_key_string(a, c, t, g))`. -/
def kgroupLoopT (k a c g : Nat) : List (Nat × Nat × Nat × Nat) :=
  (List.range (k + 1)).filterMap fun t =>
    if a + c + g + t = k then some (makeKeyString a c t g) else none

/-- `for g in range(k+1): ...` level of the grouped-vocabulary enumeration. -/
def kgroupLoopG (k a c : Nat) : List (Nat × Nat × Nat × Nat) :=
  (List.range (k + 1)).flatMap fun g => kgroupLoopT k a c g

/-- `for c in range(k+1): ...` level of the grouped-vocabulary enumeration. -/
def kgroupLoopC (k a : Nat) : List (Nat × Nat × Nat × Nat) :=
  (List.range (k + 1)).flatMap fun c => kgroupLoopG k a c

/-- `KGroupKMerTransformer.__create_kgroup_kmer_permutations`: nested ascending
loops over `a`, `c`, `g`, `t` in `range(k+1)`, keeping `(a, c, t, g)` whenever
`a + c + g + t == k`. -/
def createKgroupKmerPermutations (k : Nat) : List (Nat × Nat × Nat × Nat) :=
  (List.range (k + 1)).flatMap fun a => kgroupLoopC k a

/-- One iteration of `kmer_freq[key] += amt`: fails (Python `KeyError`) when
`key` is not among the keys `dict.fromkeys(vocab, 0)` was built from. -/
def dictIncr {κ : Type} [DecidableEq κ] (vocab : List κ) (f : κ → ℚ) (key : κ) (amt : ℚ) :
    Option (κ → ℚ) :=
  if key ∈ vocab then some (fun w => if w = key then f w + amt else f w) else none

/-- The counting loop shared by both transformers: iterate over the index list,
incrementing the key produced by `keyOf` by `amt`; abort on a missing key. -/
def countLoop {κ : Type} [DecidableEq κ] (vocab : List κ) (keyOf : Nat → κ) (amt : ℚ) :
    List Nat → (κ → ℚ) → Option (κ → ℚ)
  | [], f => some f
  | i :: is, f =>
    match dictIncr vocab f (keyOf i) amt with
    | none => none
    | some f2 => countLoop vocab keyOf amt is f2

/-- The window `seq[i : i+k]`. -/
def window (seq : List Char) (i k : Nat) : List Char := (seq.drop i).take k

/-- `KMerTransformer.__kmer_transform_seq`: start from `dict.fromkeys(perms, 0)`,
then `for i in range(len(seq) - k): kmer_freq[seq[i:i+k]] += 1` (or `+= 1/len(seq)`
when `normalize`). -/
def kmerTransformSeq (normalize : Bool) (seq : List Char) (k : Nat)
    (kmerPerms : List (List Char)) : Option (List Char → ℚ) :=
  countLoop kmerPerms (fun i => window seq i k)
    (if normalize then 1 / (seq.length : ℚ) else 1)
    (List.range (seq.length - k)) (fun _ => 0)

/-- The composition key formed in `KGroupKMerTransformer.__kmer_transform_seq`:
`a = subseq.count('A')` etc., then `make_key_string(a, c, t, g)`. -/
def compKey (subseq : List Char) : Nat × Nat × Nat × Nat :=
  makeKeyString (subseq.count 'A') (subseq.count 'C') (subseq.count 'T') (subseq.count 'G')

/-- `KGroupKMerTransformer.__kmer_transform_seq`: same loop as the exact mode but
the incremented key is the window's composition key. -/
def kgroupKmerTransformSeq (normalize : Bool) (seq : List Char) (k : Nat)
    (kmerPerms : List (Nat × Nat × Nat × Nat)) : Option ((Nat × Nat × Nat × Nat) → ℚ) :=
  countLoop kmerPerms (fun i => compKey (window seq i k))
    (if normalize then 1 / (seq.length : ℚ) else 1)
    (List.range (seq.length - k)) (fun _ => 0)

/-- A feature table: an ordered list of column keys and one total row function
per input row (a pandas DataFrame whose rows are read through their columns). -/
structure PTable (κ : Type) where
  cols : List κ
  rows : List (κ → ℚ)

/-- `KGroupColumnPruner.fit`: `columns_to_keep = X.loc[:, (X > 0).any(axis=0)].columns`
— the columns, in original order, having a strictly positive value in some row. -/
def kgroupColumnPrunerFit {κ : Type} (X : PTable κ) : List κ :=
  X.cols.filter (fun c => X.rows.any (fun r => decide (0 < r c)))

/-- `KGroupColumnPruner.transform`: `X[self.columns_to_keep]`. -/
def kgroupColumnPrunerTransform {κ : Type} (columnsToKeep : List κ) (X : PTable κ) : PTable κ :=
  { cols := columnsToKeep, rows := X.rows }

/-- Written from the spec's words (§3, §4.2), for comparison with the source's
enumerator: "order is determined by nested ascending enumeration over
(a,c,g,t) filtered by a+c+g+t=k, with t enumerated in the tuple as (a,c,t,g)". -/
def groupedVocabOrderSpec (k : Nat) : List (Nat × Nat × Nat × Nat) :=
  (List.range (k + 1)).flatMap fun a =>
    (List.range (k + 1)).flatMap fun c =>
      (List.range (k + 1)).flatMap fun g =>
        (List.range (k + 1)).flatMap fun t =>
          if a + c + g + t = k then [(a, c, t, g)] else []

/-- All length-`n` strings over the DNA alphabet, enumerated structurally
(reference enumeration used to count the exact-mode vocabulary). -/
def allKmerStrings : Nat → List (List Char)
  | 0 => [[]]
  | n + 1 => dnaAlphabet.flatMap fun c => (allKmerStrings n).map fun w => c :: w

/-- `KMerTransformer.fit` for a `Nat`-valued `k`: the method body performs no
validation of `k` whatsoever and cannot raise — it just stores the enumerated
vocabulary.  The `Except` wrapper makes the (absent) error channel explicit. -/
def pyExactFit (k : Nat) : Except String (List (List Char)) :=
  Except.ok (createKmerPermutations k)

/-- `KGroupKMerTransformer.fit` for a `Nat`-valued `k`: likewise unvalidated. -/
def pyKgroupFit (k : Nat) : Except String (List (Nat × Nat × Nat × Nat)) :=
  Except.ok (createKgroupKmerPermutations k)

/-! ## Exact-mode vocabulary -/

theorem mem_dnaAlphabet_of_mem_superstring {c : Char} {k : Nat} (h : c ∈ superstring k) :
    c ∈ dnaAlphabet := by
  simp only [superstring, List.mem_append, List.mem_replicate] at h
  rcases h with ⟨-, rfl⟩ | ⟨-, rfl⟩ | ⟨-, rfl⟩ | ⟨-, rfl⟩ <;> simp [dnaAlphabet]

theorem count_superstring {c : Char} {k : Nat} (h : c ∈ dnaAlphabet) :
    (superstring k).count c = k := by
  have hGA : (('G' : Char) == 'A') = false := rfl
  have hGC : (('G' : Char) == 'C') = false := rfl
  have hGG : (('G' : Char) == 'G') = true := rfl
  have hGT : (('G' : Char) == 'T') = false := rfl
  have hAA : (('A' : Char) == 'A') = true := rfl
  have hAC : (('A' : Char) == 'C') = false := rfl
  have hAG : (('A' : Char) == 'G') = false := rfl
  have hAT : (('A' : Char) == 'T') = false := rfl
  have hTA : (('T' : Char) == 'A') = false := rfl
  have hTC : (('T' : Char) == 'C') = false := rfl
  have hTG : (('T' : Char) == 'G') = false := rfl
  have hTT : (('T' : Char) == 'T') = true := rfl
  have hCA : (('C' : Char) == 'A') = false := rfl
  have hCC : (('C' : Char) == 'C') = true := rfl
  have hCG : (('C' : Char) == 'G') = false := rfl
  have hCT : (('C' : Char) == 'T') = false := rfl
  simp only [dnaAlphabet, List.mem_cons, List.not_mem_nil, or_false] at h
  rcases h with rfl | rfl | rfl | rfl <;>
    simp [superstring, List.count_append, List.count_replicate,
      hGA, hGC, hGG, hGT, hAA, hAC, hAG, hAT, hTA, hTC, hTG, hTT, hCA, hCC, hCG, hCT]

theorem mem_createKmerPermutations {k : Nat} {w : List Char} :
    w ∈ createKmerPermutations k ↔ w.length = k ∧ ∀ c ∈ w, c ∈ dnaAlphabet := by
  rw [createKmerPermutations, (List.perm_insertionSort _ _).mem_iff, List.mem_dedup,
    pyPermutations]
  simp only [List.mem_flatMap, List.mem_filter, List.mem_sublists, List.mem_permutations,
    decide_eq_true_eq]
  constructor
  · rintro ⟨t, ⟨hts, htl⟩, hwt⟩
    refine ⟨hwt.length_eq.trans htl, fun c hc => ?_⟩
    exact mem_dnaAlphabet_of_mem_superstring (hts.subset (hwt.mem_iff.mp hc))
  · rintro ⟨hlen, hchars⟩
    have hsp : w.Subperm (superstring k) := by
      rw [List.subperm_ext_iff]
      intro x hx
      calc List.count x w ≤ w.length := List.count_le_length x w
        _ = k := hlen
        _ = (superstring k).count x := (count_superstring (hchars x hx)).symm
    obtain ⟨t, htw, hts⟩ := hsp
    exact ⟨t, ⟨hts, htw.length_eq.trans hlen⟩, htw.symm⟩

theorem nodup_createKmerPermutations (k : Nat) : (createKmerPermutations k).Nodup :=
  (List.perm_insertionSort _ _).nodup_iff.mpr (List.nodup_dedup _)

theorem sorted_le_createKmerPermutations (k : Nat) :
    List.Sorted (· ≤ ·) (createKmerPermutations k) :=
  List.sorted_insertionSort _ _

theorem sorted_createKmerPermutations (k : Nat) :
    List.Sorted (· < ·) (createKmerPermutations k) :=
  (sorted_le_createKmerPermutations k).lt_of_le (nodup_createKmerPermutations k)

theorem nodup_flatMap_of {α β : Type} (l : List α) (f : α → List β) (hl : l.Nodup)
    (hf : ∀ a ∈ l, (f a).Nodup)
    (hdisj : ∀ a ∈ l, ∀ b ∈ l, a ≠ b → ∀ x ∈ f a, x ∉ f b) :
    (l.flatMap f).Nodup := by
  induction l with
  | nil => simp
  | cons a l ih =>
    rw [List.flatMap_cons, List.nodup_append]
    rw [List.nodup_cons] at hl
    refine ⟨hf a (by simp), ih hl.2 (fun b hb => hf b (by simp [hb]))
      (fun b hb c hc hbc => hdisj b (by simp [hb]) c (by simp [hc]) hbc), ?_⟩
    intro x hxa hxl
    rw [List.mem_flatMap] at hxl
    obtain ⟨b, hb, hxb⟩ := hxl
    have hab : a ≠ b := by rintro rfl; exact hl.1 hb
    exact hdisj a (by simp) b (by simp [hb]) hab x hxa hxb

theorem length_allKmerStrings (n : Nat) : (allKmerStrings n).length = 4 ^ n := by
  induction n with
  | zero => rfl
  | succ n ih =>
    simp only [allKmerStrings, List.length_flatMap, dnaAlphabet]
    simp [ih]
    ring

theorem mem_allKmerStrings {n : Nat} {w : List Char} :
    w ∈ allKmerStrings n ↔ w.length = n ∧ ∀ c ∈ w, c ∈ dnaAlphabet := by
  induction n generalizing w with
  | zero => cases w <;> simp [allKmerStrings]
  | succ n ih =>
    cases w with
    | nil => simp [allKmerStrings]
    | cons c w =>
      simp only [allKmerStrings, List.mem_flatMap, List.mem_map, List.length_cons,
        List.mem_cons, List.not_mem_nil, or_false, forall_eq_or_imp]
      constructor
      · rintro ⟨a, ha, v, hv, heq⟩
        obtain ⟨rfl, rfl⟩ : a = c ∧ v = w := by
          rw [List.cons.injEq] at heq; exact ⟨heq.1, heq.2⟩
        obtain ⟨hlen, hchars⟩ := ih.mp hv
        exact ⟨by omega, ha, hchars⟩
      · rintro ⟨hlen, hc, hchars⟩
        exact ⟨c, hc, w, ih.mpr ⟨by omega, hchars⟩, rfl⟩

theorem nodup_allKmerStrings (n : Nat) : (allKmerStrings n).Nodup := by
  induction n with
  | zero => simp [allKmerStrings]
  | succ n ih =>
    refine nodup_flatMap_of _ _ (by decide) (fun a _ => ih.map ?_) ?_
    · intro u v huv
      rw [List.cons.injEq] at huv
      exact huv.2
    · intro a _ b _ hab x hxa hxb
      rw [List.mem_map] at hxa hxb
      obtain ⟨u, -, rfl⟩ := hxa
      obtain ⟨v, -, hv⟩ := hxb
      rw [List.cons.injEq] at hv
      exact hab hv.1.symm

theorem length_createKmerPermutations (k : Nat) :
    (createKmerPermutations k).length = 4 ^ k := by
  have hperm : (createKmerPermutations k).Perm (allKmerStrings k) :=
    (List.perm_ext_iff_of_nodup (nodup_createKmerPermutations k) (nodup_allKmerStrings k)).mpr
      (fun w => by rw [mem_createKmerPermutations, mem_allKmerStrings])
  rw [hperm.length_eq, length_allKmerStrings]

/-- C2: for every k ≥ 1, the exact-mode vocabulary enumerator returns a list
containing every string of length k over {A,C,G,T} exactly once (length `4 ^ k`,
no duplicates), sorted ascending lexicographically. -/
theorem exact_vocab_complete_nodup_sorted (k : Nat) (_hk : 1 ≤ k) :
    (∀ w, w ∈ createKmerPermutations k ↔ w.length = k ∧ ∀ c ∈ w, c ∈ dnaAlphabet) ∧
    (createKmerPermutations k).Nodup ∧
    (createKmerPermutations k).length = 4 ^ k ∧
    List.Sorted (· < ·) (createKmerPermutations k) :=
  ⟨fun _ => mem_createKmerPermutations, nodup_createKmerPermutations k,
    length_createKmerPermutations k, sorted_createKmerPermutations k⟩

/-- Witness for C2 at the concrete input k = 2. -/
theorem exact_vocab_complete_nodup_sorted_witness :
    1 ≤ 2 ∧
    ((∀ w, w ∈ createKmerPermutations 2 ↔ w.length = 2 ∧ ∀ c ∈ w, c ∈ dnaAlphabet) ∧
    (createKmerPermutations 2).Nodup ∧
    (createKmerPermutations 2).length = 4 ^ 2 ∧
    List.Sorted (· < ·) (createKmerPermutations 2)) :=
  ⟨by decide, exact_vocab_complete_nodup_sorted 2 (by decide)⟩

/-! ## Grouped-mode vocabulary -/

theorem filterMap_ite_eq_map_filter {α β : Type} (p : α → Prop) [DecidablePred p]
    (g : α → β) (l : List α) :
    l.filterMap (fun t => if p t then some (g t) else none) =
    (l.filter (fun t => decide (p t))).map g := by
  induction l with
  | nil => rfl
  | cons a l ih => by_cases h : p a <;> simp [h, ih]

theorem flatMap_ite_eq_map_filter {α β : Type} (p : α → Prop) [DecidablePred p]
    (g : α → β) (l : List α) :
    (l.flatMap fun t => if p t then [g t] else []) =
    (l.filter (fun t => decide (p t))).map g := by
  induction l with
  | nil => rfl
  | cons a l ih => by_cases h : p a <;> simp [h, ih]

theorem createKgroup_eq_groupedVocabOrderSpec (k : Nat) :
    createKgroupKmerPermutations k = groupedVocabOrderSpec k := by
  unfold createKgroupKmerPermutations groupedVocabOrderSpec kgroupLoopC kgroupLoopG kgroupLoopT
  simp only [filterMap_ite_eq_map_filter, flatMap_ite_eq_map_filter, makeKeyString]

theorem mem_createKgroupKmerPermutations {k : Nat} {q : Nat × Nat × Nat × Nat} :
    q ∈ createKgroupKmerPermutations k ↔ q.1 + q.2.1 + q.2.2.2 + q.2.2.1 = k := by
  obtain ⟨a, c, t, g⟩ := q
  simp only [createKgroupKmerPermutations, kgroupLoopC, kgroupLoopG, kgroupLoopT,
    List.mem_flatMap, List.mem_filterMap, List.mem_range, Option.ite_none_right_eq_some,
    makeKeyString, Option.some.injEq, Prod.mk.injEq]
  constructor
  · rintro ⟨a1, ha1, c1, hc1, g1, hg1, t1, ht1, hsum, rfl, rfl, rfl, rfl⟩
    omega
  · intro hsum
    exact ⟨a, by omega, c, by omega, g, by omega, t, by omega, by omega, rfl, rfl, rfl, rfl⟩

theorem shape_kgroupLoopT {k a c g : Nat} {q : Nat × Nat × Nat × Nat}
    (h : q ∈ kgroupLoopT k a c g) : q.1 = a ∧ q.2.1 = c ∧ q.2.2.2 = g := by
  simp only [kgroupLoopT, List.mem_filterMap, List.mem_range,
    Option.ite_none_right_eq_some, Option.some.injEq, makeKeyString] at h
  obtain ⟨t1, -, -, rfl⟩ := h
  exact ⟨rfl, rfl, rfl⟩

theorem shape_kgroupLoopG {k a c : Nat} {q : Nat × Nat × Nat × Nat}
    (h : q ∈ kgroupLoopG k a c) : q.1 = a ∧ q.2.1 = c := by
  rw [kgroupLoopG, List.mem_flatMap] at h
  obtain ⟨g, -, hq⟩ := h
  exact ⟨(shape_kgroupLoopT hq).1, (shape_kgroupLoopT hq).2.1⟩

theorem shape_kgroupLoopC {k a : Nat} {q : Nat × Nat × Nat × Nat}
    (h : q ∈ kgroupLoopC k a) : q.1 = a := by
  rw [kgroupLoopC, List.mem_flatMap] at h
  obtain ⟨c, -, hq⟩ := h
  exact (shape_kgroupLoopG hq).1

theorem nodup_kgroupLoopT (k a c g : Nat) : (kgroupLoopT k a c g).Nodup := by
  refine List.Nodup.filterMap ?_ (List.nodup_range _)
  intro t1 t2 b hb1 hb2
  simp only [Option.mem_def, Option.ite_none_right_eq_some, Option.some.injEq,
    makeKeyString, Prod.mk.injEq] at hb1 hb2
  obtain ⟨-, -, -, ht1, -⟩ := hb1
  obtain ⟨-, -, -, ht2, -⟩ := hb2
  omega

theorem nodup_kgroupLoopG (k a c : Nat) : (kgroupLoopG k a c).Nodup := by
  refine nodup_flatMap_of _ _ (List.nodup_range _) (fun g _ => nodup_kgroupLoopT k a c g) ?_
  intro g1 _ g2 _ hg x hx1 hx2
  have e1 := (shape_kgroupLoopT hx1).2.2
  have e2 := (shape_kgroupLoopT hx2).2.2
  exact hg (e1 ▸ e2 ▸ rfl)

theorem nodup_kgroupLoopC (k a : Nat) : (kgroupLoopC k a).Nodup := by
  refine nodup_flatMap_of _ _ (List.nodup_range _) (fun c _ => nodup_kgroupLoopG k a c) ?_
  intro c1 _ c2 _ hc x hx1 hx2
  have e1 := (shape_kgroupLoopG hx1).2
  have e2 := (shape_kgroupLoopG hx2).2
  exact hc (e1 ▸ e2 ▸ rfl)

theorem nodup_createKgroupKmerPermutations (k : Nat) :
    (createKgroupKmerPermutations k).Nodup := by
  refine nodup_flatMap_of _ _ (List.nodup_range _) (fun a _ => nodup_kgroupLoopC k a) ?_
  intro a1 _ a2 _ ha x hx1 hx2
  have e1 := shape_kgroupLoopC hx1
  have e2 := shape_kgroupLoopC hx2
  exact ha (e1 ▸ e2 ▸ rfl)

theorem countP_range_solution (m k n : Nat) :
    (List.range n).countP (fun t => decide (m + t = k)) = if m ≤ k ∧ k - m < n then 1 else 0 := by
  induction n with
  | zero =>
    rw [List.range_zero, List.countP_nil, if_neg]
    omega
  | succ n ih =>
    rw [List.range_succ, List.countP_append, ih]
    simp only [List.countP_cons, List.countP_nil, decide_eq_true_eq, Nat.zero_add]
    split_ifs <;> omega

theorem length_kgroupLoopT (k a c g : Nat) :
    (kgroupLoopT k a c g).length = if a + c + g ≤ k then 1 else 0 := by
  rw [kgroupLoopT, filterMap_ite_eq_map_filter, List.length_map,
    ← List.countP_eq_length_filter, countP_range_solution]
  split_ifs <;> omega

theorem list_range_map_sum (f : Nat → Nat) (n : Nat) :
    ((List.range n).map f).sum = ∑ i ∈ Finset.range n, f i := by
  induction n with
  | zero => rfl
  | succ n ih =>
    rw [List.range_succ, List.map_append, List.sum_append, Finset.sum_range_succ, ih]
    simp

theorem length_kgroupLoopG (k a c : Nat) :
    (kgroupLoopG k a c).length = (k + 1) - (a + c) := by
  rw [kgroupLoopG, List.length_flatMap, list_range_map_sum]
  simp only [Function.comp, length_kgroupLoopT]
  rw [← Finset.card_filter]
  have h : (Finset.range (k + 1)).filter (fun g => a + c + g ≤ k) =
      Finset.range ((k + 1) - (a + c)) := by
    ext g
    simp only [Finset.mem_filter, Finset.mem_range]
    omega
  rw [h, Finset.card_range]

theorem sum_range_sub_self (m : Nat) :
    ∑ c ∈ Finset.range m, (m - c) = (m + 1).choose 2 := by
  induction m with
  | zero => rfl
  | succ m ih =>
    rw [Finset.sum_range_succ]
    have h1 : ∑ c ∈ Finset.range m, (m + 1 - c) = (∑ c ∈ Finset.range m, (m - c)) + m :=
      calc ∑ c ∈ Finset.range m, (m + 1 - c) = ∑ c ∈ Finset.range m, ((m - c) + 1) :=
            Finset.sum_congr rfl (fun c hc => by rw [Finset.mem_range] at hc; omega)
        _ = (∑ c ∈ Finset.range m, (m - c)) + ∑ c ∈ Finset.range m, 1 :=
            Finset.sum_add_distrib
        _ = (∑ c ∈ Finset.range m, (m - c)) + m := by simp
    have h2 : (m + 1 + 1).choose 2 = (m + 1).choose 1 + (m + 1).choose 2 :=
      Nat.choose_succ_succ' (m + 1) 1
    rw [h1, ih, h2, Nat.choose_one_right]
    omega

theorem length_kgroupLoopC (k a : Nat) :
    (kgroupLoopC k a).length = ((k + 1 - a) + 1).choose 2 := by
  rw [kgroupLoopC, List.length_flatMap, list_range_map_sum]
  simp only [Function.comp, length_kgroupLoopG]
  rw [Finset.sum_congr rfl (fun c _ => (by omega : (k + 1) - (a + c) = (k + 1 - a) - c))]
  have hm : k + 1 - a ≤ k + 1 := by omega
  have hz : ∀ x ∈ Finset.range (k + 1), x ∉ Finset.range (k + 1 - a) → (k + 1 - a) - x = 0 := by
    intro x _ hx
    rw [Finset.mem_range] at hx
    omega
  rw [← Finset.sum_subset (Finset.range_subset.mpr hm) hz, sum_range_sub_self]

theorem sum_choose_two (n : Nat) :
    ∑ j ∈ Finset.range n, (j + 2).choose 2 = (n + 2).choose 3 := by
  induction n with
  | zero => rfl
  | succ n ih =>
    rw [Finset.sum_range_succ, ih]
    show (n + 2).choose 3 + (n + 2).choose 2 = (n + 3).choose 3
    have h2 : (n + 3).choose 3 = (n + 2).choose 2 + (n + 2).choose 3 :=
      Nat.choose_succ_succ' (n + 2) 2
    omega

theorem length_createKgroupKmerPermutations (k : Nat) :
    (createKgroupKmerPermutations k).length = (k + 3).choose 3 := by
  rw [createKgroupKmerPermutations, List.length_flatMap, list_range_map_sum]
  simp only [Function.comp, length_kgroupLoopC]
  rw [← Finset.sum_range_reflect]
  rw [Finset.sum_congr rfl (fun j hj => ?_), sum_choose_two]
  rw [Finset.mem_range] at hj
  have h : (k + 1 - (k + 1 - 1 - j)) + 1 = j + 2 := by omega
  rw [h]

/-- C3: for every k ≥ 1, the grouped-mode vocabulary enumerator returns a list of
exactly `C(k+3,3)` distinct 4-tuples, each with non-negative components summing
to k; the order is that of nested ascending loops over a, c, g, t filtered by
a+c+g+t=k, each key emitted with field order (a,c,t,g). -/
theorem grouped_vocab_count_distinct_order (k : Nat) (_hk : 1 ≤ k) :
    (createKgroupKmerPermutations k).length = (k + 3).choose 3 ∧
    (createKgroupKmerPermutations k).Nodup ∧
    (∀ q ∈ createKgroupKmerPermutations k, q.1 + q.2.1 + q.2.2.2 + q.2.2.1 = k) ∧
    createKgroupKmerPermutations k = groupedVocabOrderSpec k :=
  ⟨length_createKgroupKmerPermutations k, nodup_createKgroupKmerPermutations k,
    fun _ hq => mem_createKgroupKmerPermutations.mp hq,
    createKgroup_eq_groupedVocabOrderSpec k⟩

/-- Witness for C3 at the concrete input k = 1. -/
theorem grouped_vocab_count_distinct_order_witness :
    1 ≤ 1 ∧
    ((createKgroupKmerPermutations 1).length = (1 + 3).choose 3 ∧
    (createKgroupKmerPermutations 1).Nodup ∧
    (∀ q ∈ createKgroupKmerPermutations 1, q.1 + q.2.1 + q.2.2.2 + q.2.2.1 = 1) ∧
    createKgroupKmerPermutations 1 = groupedVocabOrderSpec 1) :=
  ⟨by decide, grouped_vocab_count_distinct_order 1 (by decide)⟩

/-! ## The counting loop -/

theorem countLoop_some {κ : Type} [DecidableEq κ] (vocab : List κ) (keyOf : Nat → κ)
    (amt : ℚ) (is : List Nat) (f : κ → ℚ) (h : ∀ i ∈ is, keyOf i ∈ vocab) :
    ∃ g, countLoop vocab keyOf amt is f = some g := by
  induction is generalizing f with
  | nil => exact ⟨f, rfl⟩
  | cons i is ih =>
    have hi : keyOf i ∈ vocab := h i (List.mem_cons_self i is)
    obtain ⟨g, hg⟩ := ih (fun w => if w = keyOf i then f w + amt else f w)
      (fun j hj => h j (List.mem_cons_of_mem i hj))
    refine ⟨g, ?_⟩
    rw [countLoop, dictIncr, if_pos hi]
    exact hg

theorem countLoop_mem_of_some {κ : Type} [DecidableEq κ] {vocab : List κ} {keyOf : Nat → κ}
    {amt : ℚ} {is : List Nat} {f g : κ → ℚ}
    (hfold : countLoop vocab keyOf amt is f = some g) :
    ∀ i ∈ is, keyOf i ∈ vocab := by
  induction is generalizing f with
  | nil => intro i hi; cases hi
  | cons i is ih =>
    intro j hj
    rw [countLoop] at hfold
    by_cases hk : keyOf i ∈ vocab
    · rcases List.mem_cons.mp hj with rfl | hj2
      · exact hk
      · rw [dictIncr, if_pos hk] at hfold
        exact ih hfold j hj2
    · rw [dictIncr, if_neg hk] at hfold
      simp at hfold

theorem countLoop_apply {κ : Type} [DecidableEq κ] {vocab : List κ} {keyOf : Nat → κ}
    {amt : ℚ} {is : List Nat} {f g : κ → ℚ}
    (hfold : countLoop vocab keyOf amt is f = some g) :
    ∀ q, g q = f q + (is.countP (fun i => decide (keyOf i = q))) * amt := by
  induction is generalizing f with
  | nil =>
    obtain rfl : f = g := by simpa [countLoop] using hfold
    intro q
    simp
  | cons i is ih =>
    intro q
    rw [countLoop] at hfold
    by_cases hk : keyOf i ∈ vocab
    · rw [dictIncr, if_pos hk] at hfold
      rw [ih hfold q]
      simp only [List.countP_cons, decide_eq_true_eq]
      by_cases hq : keyOf i = q
      · subst hq
        simp only [if_pos rfl]
        push_cast
        ring
      · have h1 : ¬(q = keyOf i) := fun h2 => hq h2.symm
        simp only [if_neg hq, if_neg h1]
        simp
    · rw [dictIncr, if_neg hk] at hfold
      simp at hfold

theorem sum_map_zero {κ : Type} (l : List κ) : (l.map (fun _ => (0 : ℚ))).sum = 0 := by
  induction l with
  | nil => rfl
  | cons a l ih => simp [ih]

theorem sum_map_update {κ : Type} [DecidableEq κ] {vocab : List κ} (hnd : vocab.Nodup)
    {key : κ} (hk : key ∈ vocab) (f : κ → ℚ) (amt : ℚ) :
    (vocab.map (fun w => if w = key then f w + amt else f w)).sum = (vocab.map f).sum + amt := by
  induction vocab with
  | nil => cases hk
  | cons a l ih =>
    rw [List.nodup_cons] at hnd
    rcases List.mem_cons.mp hk with heq | hk2
    · subst heq
      simp only [List.map_cons, List.sum_cons]
      rw [List.map_congr_left (fun w hw => if_neg (fun hc : w = key => hnd.1 (hc ▸ hw)))]
      simp [add_comm, add_assoc, add_left_comm]
    · have hak : ¬(a = key) := fun h2 => hnd.1 (h2 ▸ hk2)
      simp only [List.map_cons, List.sum_cons, if_neg hak]
      rw [ih hnd.2 hk2]
      ring

theorem countLoop_sum {κ : Type} [DecidableEq κ] {vocab : List κ} (hnd : vocab.Nodup)
    {keyOf : Nat → κ} {amt : ℚ} {is : List Nat} {f g : κ → ℚ}
    (hfold : countLoop vocab keyOf amt is f = some g) :
    (vocab.map g).sum = (vocab.map f).sum + is.length * amt := by
  induction is generalizing f with
  | nil =>
    obtain rfl : f = g := by simpa [countLoop] using hfold
    simp
  | cons i is ih =>
    rw [countLoop] at hfold
    by_cases hk : keyOf i ∈ vocab
    · rw [dictIncr, if_pos hk] at hfold
      rw [ih hfold, sum_map_update hnd hk f amt]
      simp only [List.length_cons]
      push_cast
      ring
    · rw [dictIncr, if_neg hk] at hfold
      simp at hfold

/-! ## Windows and composition keys -/

theorem window_length {seq : List Char} {i k : Nat} (h : i < seq.length - k) :
    (window seq i k).length = k := by
  rw [window, List.length_take, List.length_drop]
  omega

theorem window_chars {seq : List Char} {i k : Nat} {c : Char} (hc : c ∈ window seq i k) :
    c ∈ seq := by
  rw [window] at hc
  exact List.mem_of_mem_drop (List.mem_of_mem_take hc)

theorem window_mem_vocab {seq : List Char} {k i : Nat}
    (hall : ∀ c ∈ seq, c ∈ dnaAlphabet) (hi : i < seq.length - k) :
    window seq i k ∈ createKmerPermutations k :=
  mem_createKmerPermutations.mpr ⟨window_length hi, fun c hc => hall c (window_chars hc)⟩

theorem count4_eq_length {w : List Char} (h : ∀ c ∈ w, c ∈ dnaAlphabet) :
    w.count 'A' + w.count 'C' + w.count 'G' + w.count 'T' = w.length := by
  induction w with
  | nil => rfl
  | cons c w ih =>
    have hc := h c (List.mem_cons_self c w)
    have hrest := ih (fun x hx => h x (List.mem_cons_of_mem c hx))
    simp only [dnaAlphabet, List.mem_cons, List.not_mem_nil, or_false] at hc
    rcases hc with rfl | rfl | rfl | rfl
    · rw [List.count_cons_self, List.count_cons_of_ne (by decide),
        List.count_cons_of_ne (by decide), List.count_cons_of_ne (by decide), List.length_cons]
      omega
    · rw [List.count_cons_of_ne (by decide), List.count_cons_self,
        List.count_cons_of_ne (by decide), List.count_cons_of_ne (by decide), List.length_cons]
      omega
    · rw [List.count_cons_of_ne (by decide), List.count_cons_of_ne (by decide),
        List.count_cons_self, List.count_cons_of_ne (by decide), List.length_cons]
      omega
    · rw [List.count_cons_of_ne (by decide), List.count_cons_of_ne (by decide),
        List.count_cons_of_ne (by decide), List.count_cons_self, List.length_cons]
      omega

theorem count4_le_length (w : List Char) :
    w.count 'A' + w.count 'C' + w.count 'G' + w.count 'T' ≤ w.length := by
  induction w with
  | nil => simp
  | cons d w ih =>
    rw [List.length_cons]
    by_cases hd : d ∈ dnaAlphabet
    · simp only [dnaAlphabet, List.mem_cons, List.not_mem_nil, or_false] at hd
      rcases hd with rfl | rfl | rfl | rfl
      · rw [List.count_cons_self, List.count_cons_of_ne (by decide),
          List.count_cons_of_ne (by decide), List.count_cons_of_ne (by decide)]
        omega
      · rw [List.count_cons_of_ne (by decide), List.count_cons_self,
          List.count_cons_of_ne (by decide), List.count_cons_of_ne (by decide)]
        omega
      · rw [List.count_cons_of_ne (by decide), List.count_cons_of_ne (by decide),
          List.count_cons_self, List.count_cons_of_ne (by decide)]
        omega
      · rw [List.count_cons_of_ne (by decide), List.count_cons_of_ne (by decide),
          List.count_cons_of_ne (by decide), List.count_cons_self]
        omega
    · have hA : ('A' : Char) ≠ d := fun h2 => hd (by rw [← h2]; decide)
      have hC : ('C' : Char) ≠ d := fun h2 => hd (by rw [← h2]; decide)
      have hG : ('G' : Char) ≠ d := fun h2 => hd (by rw [← h2]; decide)
      have hT : ('T' : Char) ≠ d := fun h2 => hd (by rw [← h2]; decide)
      rw [List.count_cons_of_ne hA, List.count_cons_of_ne hC, List.count_cons_of_ne hG,
        List.count_cons_of_ne hT]
      omega

theorem count4_lt_length {w : List Char} {c0 : Char} (hmem : c0 ∈ w)
    (hbad : c0 ∉ dnaAlphabet) :
    w.count 'A' + w.count 'C' + w.count 'G' + w.count 'T' < w.length := by
  obtain ⟨s, t, rfl⟩ := List.append_of_mem hmem
  have h1 := count4_le_length s
  have h2 := count4_le_length t
  have hA : ('A' : Char) ≠ c0 := fun h2x => hbad (by rw [← h2x]; decide)
  have hC : ('C' : Char) ≠ c0 := fun h2x => hbad (by rw [← h2x]; decide)
  have hG : ('G' : Char) ≠ c0 := fun h2x => hbad (by rw [← h2x]; decide)
  have hT : ('T' : Char) ≠ c0 := fun h2x => hbad (by rw [← h2x]; decide)
  simp only [List.count_append, List.count_cons_of_ne hA, List.count_cons_of_ne hC,
    List.count_cons_of_ne hG, List.count_cons_of_ne hT, List.length_append, List.length_cons]
  omega

theorem compKey_mem_vocab {seq : List Char} {k i : Nat}
    (hall : ∀ c ∈ seq, c ∈ dnaAlphabet) (hi : i < seq.length - k) :
    compKey (window seq i k) ∈ createKgroupKmerPermutations k := by
  rw [mem_createKgroupKmerPermutations]
  show (window seq i k).count 'A' + (window seq i k).count 'C' +
    (window seq i k).count 'G' + (window seq i k).count 'T' = k
  rw [count4_eq_length (fun c hc => hall c (window_chars hc)), window_length hi]

/-! ## Raw-mode and normalized-mode counting claims -/

/-- C1: for every sequence of length L ≥ k over {A,C,G,T} and every k ≥ 1, the
raw-mode FeatureRow values sum to exactly L − k (the final valid offset L − k is
excluded), identically in exact and grouped mode; in particular for k = 2 and
"AAAA" the count of "AA" is 2 and all other keys are 0. -/
theorem raw_sum_eq_len_sub_k :
    (∀ (seq : List Char) (k : Nat), 1 ≤ k → k ≤ seq.length →
      (∀ c ∈ seq, c ∈ dnaAlphabet) →
      (∃ f, kmerTransformSeq false seq k (createKmerPermutations k) = some f ∧
        ((createKmerPermutations k).map f).sum = ((seq.length - k : ℕ) : ℚ)) ∧
      (∃ g, kgroupKmerTransformSeq false seq k (createKgroupKmerPermutations k) = some g ∧
        ((createKgroupKmerPermutations k).map g).sum = ((seq.length - k : ℕ) : ℚ))) ∧
    (∃ f, kmerTransformSeq false ['A', 'A', 'A', 'A'] 2 (createKmerPermutations 2) = some f ∧
      f ['A', 'A'] = 2 ∧
      ∀ w ∈ createKmerPermutations 2, w ≠ ['A', 'A'] → f w = 0) := by
  constructor
  · intro seq k _hk _hkL hall
    constructor
    · obtain ⟨f, hf⟩ := countLoop_some (createKmerPermutations k)
        (fun i => window seq i k) 1 (List.range (seq.length - k)) (fun _ => 0)
        (fun i hi => window_mem_vocab hall (List.mem_range.mp hi))
      refine ⟨f, hf, ?_⟩
      rw [countLoop_sum (nodup_createKmerPermutations k) hf, sum_map_zero, List.length_range]
      ring
    · obtain ⟨g, hg⟩ := countLoop_some (createKgroupKmerPermutations k)
        (fun i => compKey (window seq i k)) 1 (List.range (seq.length - k)) (fun _ => 0)
        (fun i hi => compKey_mem_vocab hall (List.mem_range.mp hi))
      refine ⟨g, hg, ?_⟩
      rw [countLoop_sum (nodup_createKgroupKmerPermutations k) hg, sum_map_zero,
        List.length_range]
      ring
  · obtain ⟨f, hf⟩ := countLoop_some (createKmerPermutations 2)
      (fun i => window ['A', 'A', 'A', 'A'] i 2) 1
      (List.range ((['A', 'A', 'A', 'A'] : List Char).length - 2)) (fun _ => 0)
      (fun i hi => window_mem_vocab (by decide) (List.mem_range.mp hi))
    refine ⟨f, hf, ?_, ?_⟩
    · rw [countLoop_apply hf ['A', 'A']]
      have hc : (List.range ((['A', 'A', 'A', 'A'] : List Char).length - 2)).countP
          (fun i => decide (window ['A', 'A', 'A', 'A'] i 2 = ['A', 'A'])) = 2 := by decide
      rw [hc]
      norm_num
    · intro w _hw hne
      rw [countLoop_apply hf w]
      have hr : List.range ((['A', 'A', 'A', 'A'] : List Char).length - 2) = [0, 1] := rfl
      have h0 : window ['A', 'A', 'A', 'A'] 0 2 = ['A', 'A'] := rfl
      have h1 : window ['A', 'A', 'A', 'A'] 1 2 = ['A', 'A'] := rfl
      have hd : decide (['A', 'A'] = w) = false := decide_eq_false (fun h2 => hne h2.symm)
      rw [hr]
      simp only [List.countP_cons, List.countP_nil, h0, h1, hd]
      norm_num

/-- Witness for C1 at the concrete input k = 1, seq = "ACGT". -/
theorem raw_sum_eq_len_sub_k_witness :
    (∃ f, kmerTransformSeq false ['A', 'C', 'G', 'T'] 1 (createKmerPermutations 1) = some f ∧
      ((createKmerPermutations 1).map f).sum =
        (((['A', 'C', 'G', 'T'] : List Char).length - 1 : ℕ) : ℚ)) ∧
    (∃ g, kgroupKmerTransformSeq false ['A', 'C', 'G', 'T'] 1
        (createKgroupKmerPermutations 1) = some g ∧
      ((createKgroupKmerPermutations 1).map g).sum =
        (((['A', 'C', 'G', 'T'] : List Char).length - 1 : ℕ) : ℚ)) :=
  raw_sum_eq_len_sub_k.1 ['A', 'C', 'G', 'T'] 1 (by decide) (by decide) (by decide)

/-- C8: in normalized mode each counted window increments its key by 1/L where L
is the full sequence length, so for every all-ACGT sequence with L ≥ k and L > 0
the FeatureRow values sum to exactly (L−k)/L over the rationals. -/
theorem normalized_sum_eq_len_sub_k_div_len (seq : List Char) (k : Nat)
    (_hkL : k ≤ seq.length) (_hL : 0 < seq.length) (hall : ∀ c ∈ seq, c ∈ dnaAlphabet) :
    ∃ f, kmerTransformSeq true seq k (createKmerPermutations k) = some f ∧
      ((createKmerPermutations k).map f).sum =
        ((seq.length - k : ℕ) : ℚ) / (seq.length : ℚ) := by
  obtain ⟨f, hf⟩ := countLoop_some (createKmerPermutations k)
    (fun i => window seq i k) (1 / (seq.length : ℚ)) (List.range (seq.length - k)) (fun _ => 0)
    (fun i hi => window_mem_vocab hall (List.mem_range.mp hi))
  refine ⟨f, hf, ?_⟩
  rw [countLoop_sum (nodup_createKmerPermutations k) hf, sum_map_zero, List.length_range]
  rw [div_eq_mul_inv]
  ring

/-- Witness for C8 at the concrete input k = 2, seq = "ACGT". -/
theorem normalized_sum_eq_len_sub_k_div_len_witness :
    2 ≤ (['A', 'C', 'G', 'T'] : List Char).length ∧
    (∃ f, kmerTransformSeq true ['A', 'C', 'G', 'T'] 2 (createKmerPermutations 2) = some f ∧
      ((createKmerPermutations 2).map f).sum =
        (((['A', 'C', 'G', 'T'] : List Char).length - 2 : ℕ) : ℚ) /
          (((['A', 'C', 'G', 'T'] : List Char).length : ℕ) : ℚ)) :=
  ⟨by decide,
    normalized_sum_eq_len_sub_k_div_len ['A', 'C', 'G', 'T'] 2 (by decide) (by decide)
      (by decide)⟩

/-- C7: for every sequence of length L < k, in both exact and grouped mode and
regardless of the normalize flag, the produced FeatureRow assigns 0 to every
vocabulary key (the sliding loop performs zero iterations). -/
theorem short_seq_all_zero (seq : List Char) (k : Nat) (nm : Bool) (h : seq.length < k) :
    (∃ f, kmerTransformSeq nm seq k (createKmerPermutations k) = some f ∧
      ∀ w ∈ createKmerPermutations k, f w = 0) ∧
    (∃ g, kgroupKmerTransformSeq nm seq k (createKgroupKmerPermutations k) = some g ∧
      ∀ q ∈ createKgroupKmerPermutations k, g q = 0) := by
  have hz : seq.length - k = 0 := by omega
  constructor
  · refine ⟨fun _ => 0, ?_, fun w _ => rfl⟩
    rw [kmerTransformSeq, hz]
    rfl
  · refine ⟨fun _ => 0, ?_, fun q _ => rfl⟩
    rw [kgroupKmerTransformSeq, hz]
    rfl

/-- Witness for C7 at the concrete input seq = "A", k = 2, normalize = false. -/
theorem short_seq_all_zero_witness :
    (['A'] : List Char).length < 2 ∧
    ((∃ f, kmerTransformSeq false ['A'] 2 (createKmerPermutations 2) = some f ∧
      ∀ w ∈ createKmerPermutations 2, f w = 0) ∧
    (∃ g, kgroupKmerTransformSeq false ['A'] 2 (createKgroupKmerPermutations 2) = some g ∧
      ∀ q ∈ createKgroupKmerPermutations 2, g q = 0)) :=
  ⟨by decide, short_seq_all_zero ['A'] 2 false (by decide)⟩

/-! ## Out-of-vocabulary characters -/

/-- C6: in exact mode, a non-ACGT character inside any counted window (offset
i < L − k) makes the per-sequence transform fail with a hard missing-key error. -/
theorem exact_bad_char_errors (seq : List Char) (k : Nat) (nm : Bool)
    (h : ∃ i, i < seq.length - k ∧ ∃ c ∈ window seq i k, c ∉ dnaAlphabet) :
    kmerTransformSeq nm seq k (createKmerPermutations k) = none := by
  obtain ⟨i, hi, c, hc, hbad⟩ := h
  cases hres : kmerTransformSeq nm seq k (createKmerPermutations k) with
  | none => rfl
  | some f =>
    have hmem := countLoop_mem_of_some hres i (List.mem_range.mpr hi)
    exact absurd ((mem_createKmerPermutations.mp hmem).2 c hc) hbad

/-- Witness for C6 at the concrete input seq = "ANA", k = 1, raw mode. -/
theorem exact_bad_char_errors_witness :
    (∃ i, i < (['A', 'N', 'A'] : List Char).length - 1 ∧
      ∃ c ∈ window ['A', 'N', 'A'] i 1, c ∉ dnaAlphabet) ∧
    kmerTransformSeq false ['A', 'N', 'A'] 1 (createKmerPermutations 1) = none :=
  ⟨⟨1, by decide, 'N', by decide, by decide⟩,
    exact_bad_char_errors ['A', 'N', 'A'] 1 false ⟨1, by decide, 'N', by decide, by decide⟩⟩

/-- C4 counterexample: contrary to the claim that grouped mode "does not raise an
error" on non-ACGT characters, the transform of "NA" with k = 1 hits the key
(0,0,0,0), which is absent from the grouped vocabulary, and aborts. -/
theorem grouped_bad_char_counterexample :
    kgroupKmerTransformSeq false ['N', 'A'] 1 (createKgroupKmerPermutations 1) = none := rfl

/-- C4 amended: in grouped mode, a non-ACGT character inside a counted window
produces a composition key whose components sum to less than k; that key is
absent from the vocabulary, so the per-sequence transform fails with the same
hard missing-key error as exact mode, and no row is produced. -/
theorem grouped_bad_char_errors (seq : List Char) (k : Nat) (nm : Bool)
    (h : ∃ i, i < seq.length - k ∧ ∃ c ∈ window seq i k, c ∉ dnaAlphabet) :
    kgroupKmerTransformSeq nm seq k (createKgroupKmerPermutations k) = none := by
  obtain ⟨i, hi, c, hc, hbad⟩ := h
  cases hres : kgroupKmerTransformSeq nm seq k (createKgroupKmerPermutations k) with
  | none => rfl
  | some g =>
    have hmem := countLoop_mem_of_some hres i (List.mem_range.mpr hi)
    have hsum : (window seq i k).count 'A' + (window seq i k).count 'C' +
        (window seq i k).count 'G' + (window seq i k).count 'T' = k :=
      mem_createKgroupKmerPermutations.mp hmem
    have hlt := count4_lt_length hc hbad
    have hwl : (window seq i k).length = k := window_length hi
    omega

/-- Witness for the amended C4 at the concrete input seq = "ACXT", k = 2. -/
theorem grouped_bad_char_errors_witness :
    (∃ i, i < (['A', 'C', 'X', 'T'] : List Char).length - 2 ∧
      ∃ c ∈ window ['A', 'C', 'X', 'T'] i 2, c ∉ dnaAlphabet) ∧
    kgroupKmerTransformSeq false ['A', 'C', 'X', 'T'] 2 (createKgroupKmerPermutations 2) =
      none :=
  ⟨⟨1, by decide, 'X', by decide, by decide⟩,
    grouped_bad_char_errors ['A', 'C', 'X', 'T'] 2 false
      ⟨1, by decide, 'X', by decide, by decide⟩⟩

/-! ## Column pruner -/

/-- C5: after fit on a reference table T, the stored keep-set is exactly the
columns of T having a strictly-positive value in some row, in T's original
order; transform returns a table with fewer-or-equal columns containing exactly
those columns, every one of which has a non-zero value in T. -/
theorem pruner_keeps_nonzero_columns {κ : Type} (T : PTable κ) :
    (kgroupColumnPrunerFit T).Sublist T.cols ∧
    (∀ c, c ∈ kgroupColumnPrunerFit T ↔ c ∈ T.cols ∧ ∃ r ∈ T.rows, 0 < r c) ∧
    (kgroupColumnPrunerTransform (kgroupColumnPrunerFit T) T).cols =
      kgroupColumnPrunerFit T ∧
    (kgroupColumnPrunerTransform (kgroupColumnPrunerFit T) T).cols.length ≤
      T.cols.length ∧
    (∀ c ∈ (kgroupColumnPrunerTransform (kgroupColumnPrunerFit T) T).cols,
      ∃ r ∈ T.rows, r c ≠ 0) := by
  have hmem : ∀ c, c ∈ kgroupColumnPrunerFit T ↔ c ∈ T.cols ∧ ∃ r ∈ T.rows, 0 < r c := by
    intro c
    rw [kgroupColumnPrunerFit, List.mem_filter, List.any_eq_true]
    simp only [decide_eq_true_eq]
  refine ⟨List.filter_sublist _, hmem, rfl, List.length_filter_le _ _, ?_⟩
  intro c hc
  obtain ⟨-, r, hr, hpos⟩ := (hmem c).mp hc
  exact ⟨r, hr, ne_of_gt hpos⟩

/-- Witness for C5 at a concrete two-column table (column 0 has a positive
entry, column 1 is all zero). -/
theorem pruner_keeps_nonzero_columns_witness :
    (kgroupColumnPrunerFit (PTable.mk [0, 1] [fun c => if c = 0 then 1 else 0])).Sublist
      (PTable.mk (κ := Nat) [0, 1] [fun c => if c = 0 then 1 else 0]).cols ∧
    (∀ c, c ∈ kgroupColumnPrunerFit (PTable.mk [0, 1] [fun c => if c = 0 then 1 else 0]) ↔
      c ∈ (PTable.mk (κ := Nat) [0, 1] [fun c => if c = 0 then 1 else 0]).cols ∧
      ∃ r ∈ (PTable.mk (κ := Nat) [0, 1] [fun c => if c = 0 then 1 else 0]).rows, 0 < r c) ∧
    (kgroupColumnPrunerTransform
      (kgroupColumnPrunerFit (PTable.mk [0, 1] [fun c => if c = 0 then 1 else 0]))
      (PTable.mk [0, 1] [fun c => if c = 0 then 1 else 0])).cols =
      kgroupColumnPrunerFit (PTable.mk [0, 1] [fun c => if c = 0 then 1 else 0]) ∧
    (kgroupColumnPrunerTransform
      (kgroupColumnPrunerFit (PTable.mk [0, 1] [fun c => if c = 0 then 1 else 0]))
      (PTable.mk [0, 1] [fun c => if c = 0 then 1 else 0])).cols.length ≤
      (PTable.mk (κ := Nat) [0, 1] [fun c => if c = 0 then 1 else 0]).cols.length ∧
    (∀ c ∈ (kgroupColumnPrunerTransform
        (kgroupColumnPrunerFit (PTable.mk [0, 1] [fun c => if c = 0 then 1 else 0]))
        (PTable.mk [0, 1] [fun c => if c = 0 then 1 else 0])).cols,
      ∃ r ∈ (PTable.mk (κ := Nat) [0, 1] [fun c => if c = 0 then 1 else 0]).rows, r c ≠ 0) :=
  pruner_keeps_nonzero_columns (PTable.mk [0, 1] [fun c => if c = 0 then 1 else 0])

/-! ## Validation of k -/

/-- C9 counterexample: with the non-positive value k = 0, neither transformer
signals any error at construction or fit time — fit returns a vocabulary. -/
theorem invalid_k_no_error_counterexample :
    (∀ e, pyExactFit 0 ≠ Except.error e) ∧ (∀ e, pyKgroupFit 0 ≠ Except.error e) :=
  ⟨fun e h => by simp [pyExactFit] at h, fun e h => by simp [pyKgroupFit] at h⟩

/-- C9 amended: the code performs no validation of k: construction stores k
unchecked and fit always returns normally; at k = 0 the resulting vocabularies
are the one-key lists [""] (exact mode) and [(0,0,0,0)] (grouped mode). -/
theorem invalid_k_fit_returns_normally :
    (∀ k : Nat, ∃ v, pyExactFit k = Except.ok v) ∧
    (∀ k : Nat, ∃ v, pyKgroupFit k = Except.ok v) ∧
    pyExactFit 0 = Except.ok [[]] ∧
    pyKgroupFit 0 = Except.ok [(0, 0, 0, 0)] := by
  refine ⟨fun k => ⟨_, rfl⟩, fun k => ⟨_, rfl⟩, ?_, rfl⟩
  have h : createKmerPermutations 0 = [[]] := by
    simp [createKmerPermutations, pyPermutations, superstring, List.insertionSort,
      List.orderedInsert]
  rw [pyExactFit, h]

/-! ## Grouped mode refines exact mode -/

theorem sum_map_add {κ : Type} (l : List κ) (u v : κ → ℚ) :
    (l.map (fun q => u q + v q)).sum = (l.map u).sum + (l.map v).sum := by
  induction l with
  | nil => simp
  | cons a l ih =>
    simp only [List.map_cons, List.sum_cons, ih]
    ring

theorem sum_map_indicator_one {κ : Type} [DecidableEq κ] {l : List κ} (hnd : l.Nodup)
    {x : κ} (hx : x ∈ l) :
    (l.map (fun q => if x = q then (1 : ℚ) else 0)).sum = 1 := by
  induction l with
  | nil => cases hx
  | cons a l ih =>
    rw [List.nodup_cons] at hnd
    rcases List.mem_cons.mp hx with heq | hx2
    · subst heq
      simp only [List.map_cons, List.sum_cons, if_pos rfl]
      have hz : ∀ q ∈ l, (if x = q then (1 : ℚ) else 0) = 0 := by
        intro q hq
        have hne : x ≠ q := fun h2 => hnd.1 (h2 ▸ hq)
        rw [if_neg hne]
      rw [List.map_congr_left hz, sum_map_zero]
      simp
    · have hax : ¬(x = a) := fun h2 => hnd.1 (h2 ▸ hx2)
      simp only [List.map_cons, List.sum_cons, if_neg hax]
      rw [ih hnd.2 hx2]
      ring

theorem sum_map_indicator_zero {κ : Type} [DecidableEq κ] {l : List κ} {x : κ}
    (hx : x ∉ l) :
    (l.map (fun q => if x = q then (1 : ℚ) else 0)).sum = 0 := by
  have hz : ∀ q ∈ l, (if x = q then (1 : ℚ) else 0) = 0 := by
    intro q hq
    have hne : x ≠ q := fun h2 => hx (h2 ▸ hq)
    rw [if_neg hne]
  rw [List.map_congr_left hz, sum_map_zero]

theorem sum_countP_filter {κ : Type} [DecidableEq κ] (l : List κ) (hnd : l.Nodup)
    (p : κ → Bool) (keyOf : Nat → κ) (is : List Nat)
    (hkeys : ∀ i ∈ is, p (keyOf i) = true → keyOf i ∈ l) :
    ((l.filter p).map
      (fun w => ((is.countP (fun i => decide (keyOf i = w)) : ℕ) : ℚ))).sum =
      ((is.countP (fun i => p (keyOf i)) : ℕ) : ℚ) := by
  induction is with
  | nil =>
    simp only [List.countP_nil, Nat.cast_zero]
    exact sum_map_zero _
  | cons i is ih =>
    have hrec := ih (fun j hj => hkeys j (List.mem_cons_of_mem i hj))
    simp only [List.countP_cons, decide_eq_true_eq]
    have hsplit : ∀ w ∈ l.filter p,
        ((is.countP (fun j => decide (keyOf j = w)) + if keyOf i = w then 1 else 0 : ℕ) : ℚ) =
        ((is.countP (fun j => decide (keyOf j = w)) : ℕ) : ℚ) +
          (if keyOf i = w then (1 : ℚ) else 0) := by
      intro w _
      split_ifs <;> push_cast <;> ring
    rw [List.map_congr_left hsplit, sum_map_add, hrec]
    by_cases hp : p (keyOf i) = true
    · have hx : keyOf i ∈ l.filter p :=
        List.mem_filter.mpr ⟨hkeys i (List.mem_cons_self i is) hp, hp⟩
      rw [sum_map_indicator_one (hnd.filter p) hx, if_pos hp]
      push_cast
      ring
    · have hx : keyOf i ∉ l.filter p := fun hmem => hp (List.of_mem_filter hmem)
      rw [sum_map_indicator_zero hx, if_neg hp]
      push_cast
      ring

/-- C10: for every k ≥ 1 and every all-ACGT sequence, in raw mode the grouped
FeatureRow is the composition-image of the exact FeatureRow: for each
composition key q, the grouped count equals the sum of the exact counts of all
length-k strings whose composition key is q. -/
theorem grouped_refines_exact (seq : List Char) (k : Nat) (_hk : 1 ≤ k)
    (hall : ∀ c ∈ seq, c ∈ dnaAlphabet) :
    ∃ fE fG,
      kmerTransformSeq false seq k (createKmerPermutations k) = some fE ∧
      kgroupKmerTransformSeq false seq k (createKgroupKmerPermutations k) = some fG ∧
      ∀ q ∈ createKgroupKmerPermutations k,
        fG q = (((createKmerPermutations k).filter
          (fun w => decide (compKey w = q))).map fE).sum := by
  obtain ⟨fE, hfE⟩ := countLoop_some (createKmerPermutations k)
    (fun i => window seq i k) 1 (List.range (seq.length - k)) (fun _ => 0)
    (fun i hi => window_mem_vocab hall (List.mem_range.mp hi))
  obtain ⟨fG, hfG⟩ := countLoop_some (createKgroupKmerPermutations k)
    (fun i => compKey (window seq i k)) 1 (List.range (seq.length - k)) (fun _ => 0)
    (fun i hi => compKey_mem_vocab hall (List.mem_range.mp hi))
  refine ⟨fE, fG, hfE, hfG, ?_⟩
  intro q _hq
  rw [countLoop_apply hfG q]
  have hEw : ∀ w ∈ (createKmerPermutations k).filter (fun w => decide (compKey w = q)),
      fE w = (((List.range (seq.length - k)).countP
        (fun i => decide (window seq i k = w)) : ℕ) : ℚ) := by
    intro w _
    rw [countLoop_apply hfE w]
    simp
  rw [List.map_congr_left hEw,
    sum_countP_filter (createKmerPermutations k) (nodup_createKmerPermutations k)
      (fun w => decide (compKey w = q)) (fun i => window seq i k)
      (List.range (seq.length - k))
      (fun i hi _ => window_mem_vocab hall (List.mem_range.mp hi))]
  simp

/-- Witness for C10 at the concrete input seq = "ACGT", k = 2. -/
theorem grouped_refines_exact_witness :
    1 ≤ 2 ∧
    (∃ fE fG,
      kmerTransformSeq false ['A', 'C', 'G', 'T'] 2 (createKmerPermutations 2) = some fE ∧
      kgroupKmerTransformSeq false ['A', 'C', 'G', 'T'] 2
        (createKgroupKmerPermutations 2) = some fG ∧
      ∀ q ∈ createKgroupKmerPermutations 2,
        fG q = (((createKmerPermutations 2).filter
          (fun w => decide (compKey w = q))).map fE).sum) :=
  ⟨by decide, grouped_refines_exact ['A', 'C', 'G', 'T'] 2 (by decide) (by decide)⟩

end KMerTransformers
